import Mathlib

/-!
# Verification of the couchspinner ingestion pipeline (`src/App.js`)

Shallow embedding of the ingestion-and-normalization pipeline of
`src/App.js`: JavaScript values, the identity-index builder
(`getNamesFromJson`), the zip payload extractor (`getJsonFromZip`,
`getImagesFromZip`, `extractZip`), the drop handler (`onDrop`), and the
session cache (`setCacheValue`, `loadFromCache`, the `useEffect` save, and
the `App` initial state).

JavaScript values are modelled by the inductive type `JSVal`; `undefined`
stands for JavaScript `undefined` (absent properties), numbers are
modelled as integers, and objects as association lists in insertion
order.  `JSON.parse` / `JSON.stringify` are not repository code; they are
modelled from the spec ("Stored document ... serialized as text") by an
executable printer `jstringify` and parser `parseJson` over `JSVal`,
with escaping of quote and backslash characters.
-/

/-- A JavaScript value: `undefined`, `null`, booleans, numbers (modelled as
integers), strings, arrays, and objects as association lists kept in
insertion order. -/
inductive JSVal where
  | undefined : JSVal
  | null : JSVal
  | bool (b : Bool) : JSVal
  | num (n : Int) : JSVal
  | str (s : String) : JSVal
  | arr (elems : List JSVal) : JSVal
  | obj (fields : List (String × JSVal)) : JSVal

mutual

/-- Structural equality of JavaScript values.  On primitives this is the
`SameValueZero` comparison used by `Map` keys. -/
def jeq : JSVal → JSVal → Bool
  | .undefined, .undefined => true
  | .null, .null => true
  | .bool a, .bool b => a == b
  | .num a, .num b => a == b
  | .str a, .str b => a == b
  | .arr xs, .arr ys => jeqList xs ys
  | .obj fs, .obj gs => jeqFields fs gs
  | _, _ => false

/-- Pointwise `jeq` on element lists. -/
def jeqList : List JSVal → List JSVal → Bool
  | [], [] => true
  | x :: xs, y :: ys => jeq x y && jeqList xs ys
  | _, _ => false

/-- Pointwise `jeq` on field lists. -/
def jeqFields : List (String × JSVal) → List (String × JSVal) → Bool
  | [], [] => true
  | (k, v) :: fs, (l, w) :: gs => k == l && (jeq v w && jeqFields fs gs)
  | _, _ => false

end

mutual

theorem jeq_iff : ∀ a b : JSVal, jeq a b = true ↔ a = b
  | .undefined, b => by cases b <;> simp [jeq]
  | .null, b => by cases b <;> simp [jeq]
  | .bool a, b => by cases b <;> simp [jeq]
  | .num a, b => by cases b <;> simp [jeq]
  | .str a, b => by cases b <;> simp [jeq]
  | .arr xs, b => by
      cases b <;> simp [jeq]
      exact jeqList_iff xs _
  | .obj fs, b => by
      cases b <;> simp [jeq]
      exact jeqFields_iff fs _

theorem jeqList_iff : ∀ xs ys : List JSVal, jeqList xs ys = true ↔ xs = ys
  | [], ys => by cases ys <;> simp [jeqList]
  | x :: xs, ys => by
      cases ys with
      | nil => simp [jeqList]
      | cons y ys => simp [jeqList, jeq_iff x y, jeqList_iff xs ys]

theorem jeqFields_iff : ∀ fs gs : List (String × JSVal), jeqFields fs gs = true ↔ fs = gs
  | [], gs => by cases gs <;> simp [jeqFields]
  | (k, v) :: fs, gs => by
      cases gs with
      | nil => simp [jeqFields]
      | cons g gs =>
        obtain ⟨l, w⟩ := g
        simp [jeqFields, jeq_iff v w, jeqFields_iff fs gs, Prod.ext_iff, and_assoc]

end

instance : DecidableEq JSVal := fun a b => decidable_of_iff _ (jeq_iff a b)

theorem jeq_refl (a : JSVal) : jeq a a = true := (jeq_iff a a).mpr rfl

theorem jeq_symm {a b : JSVal} (h : jeq a b = true) : jeq b a = true := by
  rw [jeq_iff] at h ⊢; exact h.symm

theorem jeq_trans {a b c : JSVal} (h₁ : jeq a b = true) (h₂ : jeq b c = true) :
    jeq a c = true := by
  rw [jeq_iff] at h₁ h₂ ⊢; exact h₁.trans h₂

/-- JavaScript truthiness: `undefined`, `null`, `false`, `0` and `""` are
falsy; arrays and objects are always truthy. -/
def truthy : JSVal → Bool
  | .undefined => false
  | .null => false
  | .bool b => b
  | .num n => n != 0
  | .str s => s != ""
  | .arr _ => true
  | .obj _ => true

/-- Property read `v[k]` on an object: the last binding of the key wins
(JavaScript objects hold at most one binding per key; on an association
list with duplicates the later one models the later write).  Reading a
missing key, or reading on a non-object, yields `undefined`. -/
def getField (v : JSVal) (k : String) : JSVal :=
  match v with
  | .obj fs => (fs.foldl (fun acc p => if p.1 == k then some p.2 else acc) none).getD .undefined
  | _ => .undefined

/-- Optional chaining `v?.k`: `undefined` when `v` is nullish, otherwise the
property read. -/
def optChain (v : JSVal) (k : String) : JSVal :=
  match v with
  | .undefined => .undefined
  | .null => .undefined
  | _ => getField v k

/-- JavaScript `a || b`. -/
def jsOr (a b : JSVal) : JSVal :=
  if truthy a then a else b

/-- The elements an `Array.prototype.forEach` walk visits.  (A truthy
non-array value would raise a `TypeError` in JavaScript; all collections
reaching `forEach` in the claims are arrays, for which this model is
exact.) -/
def elemsOf : JSVal → List JSVal
  | .arr xs => xs
  | _ => []

/-- Primitive values, for which structural equality coincides with the
`SameValueZero` comparison JavaScript `Map` keys use.  (Composite keys are
compared by reference in JavaScript; theorems about the identity index
therefore carry a primitivity hypothesis on the keys.) -/
def isPrim : JSVal → Bool
  | .arr _ => false
  | .obj _ => false
  | _ => true

/-- The value stored in the `names` map for one visit record:
`{ displayName, username }` as in `collectName`. -/
structure NameEntry where
  displayName : JSVal
  username : JSVal
  deriving DecidableEq

/-- The `names` map of `getNamesFromJson`: a JavaScript `Map` from person
ids to name entries, kept in insertion order. -/
def NamesMap := List (JSVal × NameEntry)

instance : DecidableEq NamesMap := inferInstanceAs (DecidableEq (List (JSVal × NameEntry)))

/-- JavaScript `Map.prototype.set`: if an equal key is present, its value is
replaced in place (the original key object is kept); otherwise the pair is
appended. -/
def mapSet (m : NamesMap) (k : JSVal) (v : NameEntry) : NamesMap :=
  match m with
  | [] => [(k, v)]
  | (k', v') :: rest => if jeq k' k then (k', v) :: rest else (k', v') :: mapSet rest k v

/-- JavaScript `Map.prototype.get`. -/
def mapGet (m : NamesMap) (k : JSVal) : Option NameEntry :=
  match m with
  | [] => none
  | (k', v') :: rest => if jeq k' k then some v' else mapGet rest k

/-- The `collectName` closure of `getNamesFromJson`, acting on the `names`
map it mutates:

    const person = visit?.surfer || visit?.host || {};
    const username = person?.username;
    const id = person?.profile?.id;
    const displayName = person?.profile?.display_name;
    names.set(id, { displayName, username });
-/
def collectName (names : NamesMap) (visit : JSVal) : NamesMap :=
  let person := jsOr (optChain visit "surfer") (jsOr (optChain visit "host") (.obj []))
  let username := optChain person "username"
  let id := optChain (optChain person "profile") "id"
  let displayName := optChain (optChain person "profile") "display_name"
  mapSet names id ⟨displayName, username⟩

/-- `getNamesFromJson` (the identity-index builder): walks
`json?.couch_visits?.host_couch_visits` and then
`json?.couch_visits?.surfer_couch_visits`, each guarded by truthiness,
feeding every record to `collectName`. -/
def getNamesFromJson (json : JSVal) : NamesMap :=
  let names : NamesMap := []
  let hostColl := optChain (optChain json "couch_visits") "host_couch_visits"
  let names := if truthy hostColl then (elemsOf hostColl).foldl collectName names else names
  let surferColl := optChain (optChain json "couch_visits") "surfer_couch_visits"
  let names := if truthy surferColl then (elemsOf surferColl).foldl collectName names else names
  names

/-- The person sub-object `collectName` settles on for a visit record. -/
def personOf (visit : JSVal) : JSVal :=
  jsOr (optChain visit "surfer") (jsOr (optChain visit "host") (.obj []))

/-- The map key (`person?.profile?.id`) `collectName` derives from a visit
record. -/
def idOf (visit : JSVal) : JSVal :=
  optChain (optChain (personOf visit) "profile") "id"

/-- The name entry `collectName` derives from a visit record. -/
def entryOf (visit : JSVal) : NameEntry :=
  ⟨optChain (optChain (personOf visit) "profile") "display_name",
   optChain (personOf visit) "username"⟩

theorem collectName_eq (names : NamesMap) (visit : JSVal) :
    collectName names visit = mapSet names (idOf visit) (entryOf visit) := rfl

/-- A document whose `couch_visits` carries the host collection `H` and the
surfer collection `S` (both as arrays). -/
def mkVisitsJson (H S : List JSVal) : JSVal :=
  .obj [("couch_visits",
    .obj [("host_couch_visits", .arr H), ("surfer_couch_visits", .arr S)])]

theorem mapGet_mapSet (m : NamesMap) (k k' : JSVal) (v : NameEntry) :
    mapGet (mapSet m k v) k' = if jeq k k' then some v else mapGet m k' := by
  induction m with
  | nil => simp [mapSet, mapGet]
  | cons p rest ih =>
    obtain ⟨k₀, v₀⟩ := p
    by_cases h₀ : jeq k₀ k
    · simp only [mapSet, h₀, if_true, mapGet]
      by_cases h₁ : jeq k₀ k'
      · have : jeq k k' := jeq_trans (jeq_symm h₀) h₁
        simp [h₁, this]
      · have : jeq k k' = false := by
          by_contra hc
          simp only [Bool.not_eq_false] at hc
          exact absurd (jeq_trans h₀ hc) (by simp [h₁])
        simp [h₁, this, mapGet]
    · simp only [mapSet, h₀, if_false, mapGet]
      by_cases h₁ : jeq k₀ k'
      · have : jeq k k' = false := by
          by_contra hc
          simp only [Bool.not_eq_false] at hc
          exact absurd (jeq_trans h₁ (jeq_symm hc)) (by simp [h₀])
        simp [h₁, this]
      · simp [h₁, ih]

/-! ## JSON serialization

`JSON.stringify` / `JSON.parse` are platform functions, not repository
code.  Modelled from the spec: "Stored document and asset-metadata are
serialized as text"; the document is "arbitrary nested structured data
(mapping/array/scalar tree)".  The printer below emits standard JSON
(numbers as decimal integers, quote and backslash escaped in strings);
the parser is a fuel-indexed recursive-descent parser accepting exactly
that grammar, and `none` models a thrown `SyntaxError`. -/

/-- The character `\x7b` (left curly brace). -/
def lbraceC : Char := Char.ofNat 123

/-- The character `\x7d` (right curly brace). -/
def rbraceC : Char := Char.ofNat 125

/-- String-body escaping: quote and backslash are preceded by a backslash. -/
def escChars : List Char → List Char
  | [] => []
  | c :: cs => if c = '"' ∨ c = '\\' then '\\' :: c :: escChars cs else c :: escChars cs

/-- The decimal digit character for `d`. -/
def digitChar (d : Nat) : Char := Char.ofNat (48 + d)

/-- Little-endian decimal digits of `n` (empty for zero). -/
def natRevDigits (n : Nat) : List Char :=
  if h : n = 0 then [] else digitChar (n % 10) :: natRevDigits (n / 10)
decreasing_by exact Nat.div_lt_self (Nat.pos_of_ne_zero h) (by omega)

/-- Decimal notation for a natural number. -/
def natChars (n : Nat) : List Char :=
  if n = 0 then ['0'] else (natRevDigits n).reverse

/-- Decimal notation for an integer. -/
def intChars (n : Int) : List Char :=
  if n < 0 then '-' :: natChars n.natAbs else natChars n.natAbs

mutual

/-- The characters `JSON.stringify` emits for a value.  (`undefined` is not
JSON-representable: stringifying it yields no JSON text, modelled by the
non-JSON text `undefined` that `JSON.parse` rejects.) -/
def jchars : JSVal → List Char
  | .undefined => 'u' :: 'n' :: 'd' :: 'e' :: 'f' :: 'i' :: 'n' :: 'e' :: 'd' :: []
  | .null => 'n' :: 'u' :: 'l' :: 'l' :: []
  | .bool true => 't' :: 'r' :: 'u' :: 'e' :: []
  | .bool false => 'f' :: 'a' :: 'l' :: 's' :: 'e' :: []
  | .num n => intChars n
  | .str s => '"' :: (escChars s.data ++ ['"'])
  | .arr [] => '[' :: [']']
  | .arr (x :: xs) => '[' :: (jchars x ++ (jcharsElems xs ++ [']']))
  | .obj [] => lbraceC :: [rbraceC]
  | .obj (f :: fs) => lbraceC :: (fieldChars f ++ (jcharsFields fs ++ [rbraceC]))

/-- The characters for one object field, `"key":value`. -/
def fieldChars : String × JSVal → List Char
  | (k, v) => '"' :: (escChars k.data ++ ('"' :: ':' :: jchars v))

/-- The characters for the remaining array elements, each preceded by a
comma. -/
def jcharsElems : List JSVal → List Char
  | [] => []
  | x :: xs => ',' :: (jchars x ++ jcharsElems xs)

/-- The characters for the remaining object fields, each preceded by a
comma. -/
def jcharsFields : List (String × JSVal) → List Char
  | [] => []
  | f :: fs => ',' :: (fieldChars f ++ jcharsFields fs)

end

/-- `JSON.stringify`. -/
def jstringify (v : JSVal) : String := ⟨jchars v⟩

mutual

/-- JSON-representability: the value contains no `undefined`. -/
def JsonOk : JSVal → Bool
  | .undefined => false
  | .null => true
  | .bool _ => true
  | .num _ => true
  | .str _ => true
  | .arr xs => JsonOkElems xs
  | .obj fs => JsonOkFields fs

/-- All elements are JSON-representable. -/
def JsonOkElems : List JSVal → Bool
  | [] => true
  | x :: xs => JsonOk x && JsonOkElems xs

/-- All field values are JSON-representable. -/
def JsonOkFields : List (String × JSVal) → Bool
  | [] => true
  | (_, v) :: fs => JsonOk v && JsonOkFields fs

end

mutual

/-- Parser-fuel measure of a value. -/
def jsz : JSVal → Nat
  | .undefined => 1
  | .null => 1
  | .bool _ => 1
  | .num _ => 1
  | .str _ => 1
  | .arr xs => 1 + jszElems xs
  | .obj fs => 1 + jszFields fs

/-- Parser-fuel measure of an element list. -/
def jszElems : List JSVal → Nat
  | [] => 0
  | x :: xs => 1 + jsz x + jszElems xs

/-- Parser-fuel measure of a field list. -/
def jszFields : List (String × JSVal) → Nat
  | [] => 0
  | (_, v) :: fs => 1 + jsz v + jszFields fs

end

/-- Expect a literal sequence of characters, returning the remainder. -/
def parseLit : List Char → List Char → Option (List Char)
  | [], cs => some cs
  | l :: ls, c :: cs => if c = l then parseLit ls cs else none
  | _ :: _, [] => none

/-- Parse a string body up to the closing quote, undoing the escaping. -/
def parseStrBody : List Char → Option (List Char × List Char)
  | [] => none
  | c :: cs =>
    if c = '"' then some ([], cs)
    else if c = '\\' then
      match cs with
      | [] => none
      | d :: cs' =>
        match parseStrBody cs' with
        | some (s, r) => some (d :: s, r)
        | none => none
    else
      match parseStrBody cs with
      | some (s, r) => some (c :: s, r)
      | none => none

/-- Decimal digit test. -/
def isDigitC (c : Char) : Bool := 48 ≤ c.toNat && c.toNat ≤ 57

/-- Greedily read decimal digits into an accumulator. -/
def readDigitsAux : List Char → Nat → Nat × List Char
  | [], acc => (acc, [])
  | c :: cs, acc =>
    if isDigitC c then readDigitsAux cs (acc * 10 + (c.toNat - 48)) else (acc, c :: cs)

/-- Parse an (optionally negated) decimal integer. -/
def parseNum : List Char → Option (JSVal × List Char)
  | [] => none
  | c :: cs =>
    if c = '-' then
      match cs with
      | [] => none
      | c' :: _ =>
        if isDigitC c' then
          let p := readDigitsAux cs 0
          some (.num (-(p.1 : Int)), p.2)
        else none
    else if isDigitC c then
      let p := readDigitsAux (c :: cs) 0
      some (.num ((p.1 : Int)), p.2)
    else none

mutual

/-- Fuel-indexed recursive-descent JSON value parser; returns the parsed
value and the unconsumed remainder, or `none` for a syntax error. -/
def parseVal : Nat → List Char → Option (JSVal × List Char)
  | 0, _ => none
  | _ + 1, [] => none
  | f + 1, c :: cs =>
    if c = 'n' then (parseLit ['u', 'l', 'l'] cs).map (fun r => (.null, r))
    else if c = 't' then (parseLit ['r', 'u', 'e'] cs).map (fun r => (.bool true, r))
    else if c = 'f' then (parseLit ['a', 'l', 's', 'e'] cs).map (fun r => (.bool false, r))
    else if c = '"' then (parseStrBody cs).map (fun p => (.str ⟨p.1⟩, p.2))
    else if c = '[' then
      match cs with
      | [] => none
      | c' :: r =>
        if c' = ']' then some (.arr [], r)
        else
          match parseElems f cs with
          | some (vs, r') => some (.arr vs, r')
          | none => none
    else if c = lbraceC then
      match cs with
      | [] => none
      | c' :: r =>
        if c' = rbraceC then some (.obj [], r)
        else
          match parseFields f cs with
          | some (fs, r') => some (.obj fs, r')
          | none => none
    else parseNum (c :: cs)

/-- Parse one or more comma-separated array elements and the closing
bracket. -/
def parseElems : Nat → List Char → Option (List JSVal × List Char)
  | 0, _ => none
  | f + 1, cs =>
    match parseVal f cs with
    | some (v, r) =>
      match r with
      | [] => none
      | c :: r' =>
        if c = ',' then (parseElems f r').map (fun p => (v :: p.1, p.2))
        else if c = ']' then some ([v], r')
        else none
    | none => none

/-- Parse one or more comma-separated object fields and the closing
brace. -/
def parseFields : Nat → List Char → Option (List (String × JSVal) × List Char)
  | 0, _ => none
  | f + 1, cs =>
    match cs with
    | [] => none
    | c₀ :: cs' =>
      if c₀ = '"' then
        match parseStrBody cs' with
        | some (k, r) =>
          match r with
          | [] => none
          | c₁ :: r' =>
            if c₁ = ':' then
              match parseVal f r' with
              | some (v, r'') =>
                match r'' with
                | [] => none
                | c₄ :: r₃ =>
                  if c₄ = ',' then (parseFields f r₃).map (fun p => ((⟨k⟩, v) :: p.1, p.2))
                  else if c₄ = rbraceC then some ([(⟨k⟩, v)], r₃)
                  else none
              | none => none
            else none
        | none => none
      else none

end

/-- `JSON.parse`: parses the whole string as a JSON value, `none` modelling
a thrown `SyntaxError`. -/
def parseJson (s : String) : Option JSVal :=
  match parseVal (s.length + 1) s.data with
  | some (v, []) => some v
  | _ => none

/-- A character list that does not begin with a decimal digit (so a greedy
digit read stops before it). -/
def noDigitHead : List Char → Bool
  | [] => true
  | c :: _ => !isDigitC c

theorem parseLit_append (ls cs : List Char) : parseLit ls (ls ++ cs) = some cs := by
  induction ls with
  | nil => rfl
  | cons l ls ih => simp [parseLit, ih]

theorem parseStrBody_escChars (s rest : List Char) :
    parseStrBody (escChars s ++ '"' :: rest) = some (s, rest) := by
  induction s with
  | nil =>
    show parseStrBody ('"' :: rest) = some ([], rest)
    rw [parseStrBody.eq_def]
    simp
  | cons c cs ih =>
    by_cases h : c = '"' ∨ c = '\\'
    · show parseStrBody ((if c = '"' ∨ c = '\\' then '\\' :: c :: escChars cs
        else c :: escChars cs) ++ '"' :: rest) = some (c :: cs, rest)
      rw [if_pos h, List.cons_append, List.cons_append, parseStrBody.eq_def]
      simp [ih]
    · have hq : c ≠ '"' := fun hc => h (Or.inl hc)
      have hb : c ≠ '\\' := fun hc => h (Or.inr hc)
      show parseStrBody ((if c = '"' ∨ c = '\\' then '\\' :: c :: escChars cs
        else c :: escChars cs) ++ '"' :: rest) = some (c :: cs, rest)
      rw [if_neg h, List.cons_append, parseStrBody.eq_def]
      simp [hq, hb, ih]

theorem digitChar_isDigit {d : Nat} (h : d < 10) : isDigitC (digitChar d) = true := by
  interval_cases d <;> decide

theorem digitChar_toNat {d : Nat} (h : d < 10) : (digitChar d).toNat = 48 + d := by
  interval_cases d <;> decide

theorem natRevDigits_digits (n : Nat) : ∀ c ∈ natRevDigits n, isDigitC c = true := by
  induction n using Nat.strong_induction_on with
  | _ n ih =>
    rw [natRevDigits]
    split
    · simp
    · intro c hc
      rcases List.mem_cons.mp hc with h | h
      · exact h ▸ digitChar_isDigit (Nat.mod_lt _ (by omega))
      · exact ih (n / 10) (Nat.div_lt_self (by omega) (by omega)) c h

theorem natChars_digits (n : Nat) : ∀ c ∈ natChars n, isDigitC c = true := by
  unfold natChars
  split
  · intro c hc; simp at hc; subst hc; decide
  · intro c hc; exact natRevDigits_digits n c (List.mem_reverse.mp hc)

theorem natChars_head_digit (n : Nat) :
    ∃ c t, natChars n = c :: t ∧ isDigitC c = true := by
  have hne : natChars n ≠ [] := by
    unfold natChars
    split
    · simp
    · simp only [ne_eq, List.reverse_eq_nil_iff]
      rw [natRevDigits]
      split
      · omega
      · simp
  obtain ⟨c, t, hct⟩ := List.exists_cons_of_ne_nil hne
  exact ⟨c, t, hct, natChars_digits n c (hct ▸ List.mem_cons_self c t)⟩

/-- The digit-accumulation step of `readDigitsAux`. -/
def foldDigit (acc : Nat) (c : Char) : Nat := acc * 10 + (c.toNat - 48)

theorem readDigitsAux_stop (rest : List Char) (acc : Nat) (h : noDigitHead rest = true) :
    readDigitsAux rest acc = (acc, rest) := by
  cases rest with
  | nil => rfl
  | cons c cs => simp only [noDigitHead, Bool.not_eq_eq_eq_not] at h; simp [readDigitsAux, h]

theorem readDigitsAux_append (ds rest : List Char) (acc : Nat)
    (hr : noDigitHead rest = true) (hd : ∀ c ∈ ds, isDigitC c = true) :
    readDigitsAux (ds ++ rest) acc = (ds.foldl foldDigit acc, rest) := by
  induction ds generalizing acc with
  | nil => simpa using readDigitsAux_stop rest acc hr
  | cons c cs ih =>
    have hc := hd c (List.mem_cons_self c cs)
    simp only [List.cons_append, readDigitsAux, hc, if_true, List.foldl_cons]
    exact ih _ (fun c' hc' => hd c' (List.mem_cons_of_mem c hc'))

theorem foldl_natRevDigits_reverse (n : Nat) (acc : Nat) :
    (natRevDigits n).reverse.foldl foldDigit acc =
      acc * 10 ^ (natRevDigits n).length + n := by
  induction n using Nat.strong_induction_on generalizing acc with
  | _ n ih =>
    rw [natRevDigits]
    split
    · simp; omega
    · rename_i hn
      have hlt : n / 10 < n := Nat.div_lt_self (by omega) (by omega)
      simp only [List.reverse_cons, List.foldl_append, List.foldl_cons, List.foldl_nil,
        List.length_cons, List.length_reverse]
      rw [ih (n / 10) hlt acc]
      unfold foldDigit
      rw [digitChar_toNat (Nat.mod_lt _ (by omega))]
      have h48 : 48 + n % 10 - 48 = n % 10 := by omega
      rw [h48, pow_succ]
      have := Nat.div_add_mod n 10
      ring_nf
      omega

theorem readDigits_natChars (n : Nat) (rest : List Char) (hr : noDigitHead rest = true) :
    readDigitsAux (natChars n ++ rest) 0 = (n, rest) := by
  rw [readDigitsAux_append _ _ _ hr (natChars_digits n)]
  unfold natChars
  split
  · rename_i h
    subst h
    simp [foldDigit]
  · rw [foldl_natRevDigits_reverse]
    simp

theorem parseNum_pos_cons (c : Char) (tail : List Char) (hne : c ≠ '-')
    (h : isDigitC c = true) :
    parseNum (c :: tail) =
      some (.num (((readDigitsAux (c :: tail) 0).1 : Int)),
        (readDigitsAux (c :: tail) 0).2) := by
  simp [parseNum, hne, h]

theorem parseNum_neg_cons (c : Char) (tail : List Char) (h : isDigitC c = true) :
    parseNum ('-' :: c :: tail) =
      some (.num (-((readDigitsAux (c :: tail) 0).1 : Int)),
        (readDigitsAux (c :: tail) 0).2) := by
  simp [parseNum, h]

theorem parseNum_natChars (n : Nat) (rest : List Char) (hr : noDigitHead rest = true) :
    parseNum (natChars n ++ rest) = some (.num (n : Int), rest) := by
  obtain ⟨c, t, hct, hdig⟩ := natChars_head_digit n
  have hne : c ≠ '-' := by
    intro hc
    subst hc
    exact absurd hdig (by decide)
  rw [hct, List.cons_append, parseNum_pos_cons c _ hne hdig, ← List.cons_append, ← hct,
    readDigits_natChars n rest hr]

theorem parseNum_intChars (i : Int) (rest : List Char) (hr : noDigitHead rest = true) :
    parseNum (intChars i ++ rest) = some (.num i, rest) := by
  unfold intChars
  by_cases hneg : i < 0
  · rw [if_pos hneg, List.cons_append]
    obtain ⟨c, t, hct, hdig⟩ := natChars_head_digit i.natAbs
    rw [hct, List.cons_append, parseNum_neg_cons c _ hdig, ← List.cons_append, ← hct,
      readDigits_natChars _ rest hr]
    have habs : -(i.natAbs : Int) = i := by omega
    rw [habs]
  · rw [if_neg hneg, parseNum_natChars _ rest hr]
    have habs : (i.natAbs : Int) = i := by omega
    rw [habs]

theorem jsz_pos (v : JSVal) : 1 ≤ jsz v := by
  cases v <;> simp [jsz]

theorem intChars_head (i : Int) :
    ∃ c t, intChars i = c :: t ∧ (isDigitC c = true ∨ c = '-') := by
  unfold intChars
  by_cases h : i < 0
  · exact ⟨'-', _, by rw [if_pos h], Or.inr rfl⟩
  · obtain ⟨c, t, hct, hd⟩ := natChars_head_digit i.natAbs
    exact ⟨c, t, by rw [if_neg h, hct], Or.inl hd⟩

theorem jchars_cons (v : JSVal) : ∃ c t, jchars v = c :: t ∧ c ≠ ']' := by
  cases v with
  | undefined => exact ⟨'u', _, rfl, by decide⟩
  | null => exact ⟨'n', _, rfl, by decide⟩
  | bool b =>
    cases b with
    | false => exact ⟨'f', _, rfl, by decide⟩
    | true => exact ⟨'t', _, rfl, by decide⟩
  | num n =>
    obtain ⟨c, t, hct, hd⟩ := intChars_head n
    refine ⟨c, t, hct, ?_⟩
    rcases hd with hd | hd
    · intro he; subst he; exact absurd hd (by decide)
    · subst hd; decide
  | str s => exact ⟨'"', _, rfl, by decide⟩
  | arr xs =>
    cases xs with
    | nil => exact ⟨'[', _, rfl, by decide⟩
    | cons x xs => exact ⟨'[', _, rfl, by decide⟩
  | obj fs =>
    cases fs with
    | nil => exact ⟨lbraceC, _, rfl, by decide⟩
    | cons g gs => exact ⟨lbraceC, _, rfl, by decide⟩

mutual

theorem jsz_le_len : ∀ v : JSVal, jsz v ≤ (jchars v).length
  | .undefined => by simp [jsz, jchars]
  | .null => by simp [jsz, jchars]
  | .bool b => by cases b <;> simp [jsz, jchars]
  | .num n => by
    obtain ⟨c, t, hct, _⟩ := intChars_head n
    simp [jsz, jchars, hct]
  | .str s => by simp [jsz, jchars]
  | .arr [] => by simp [jsz, jszElems, jchars]
  | .arr (x :: xs) => by
    have h1 := jsz_le_len x
    have h2 := jszElems_le_len xs
    simp only [jsz, jszElems, jchars, List.length_cons, List.length_append]
    omega
  | .obj [] => by simp [jsz, jszFields, jchars]
  | .obj ((k, v) :: fs) => by
    have h1 := jsz_le_len v
    have h2 := jszFields_le_len fs
    simp only [jsz, jszFields, jchars, fieldChars, List.length_cons, List.length_append]
    omega

theorem jszElems_le_len : ∀ xs : List JSVal, jszElems xs ≤ (jcharsElems xs).length
  | [] => by simp [jszElems, jcharsElems]
  | x :: xs => by
    have h1 := jsz_le_len x
    have h2 := jszElems_le_len xs
    simp only [jszElems, jcharsElems, List.length_cons, List.length_append]
    omega

theorem jszFields_le_len : ∀ fs : List (String × JSVal), jszFields fs ≤ (jcharsFields fs).length
  | [] => by simp [jszFields, jcharsFields]
  | (k, v) :: fs => by
    have h1 := jsz_le_len v
    have h2 := jszFields_le_len fs
    simp only [jszFields, jcharsFields, fieldChars, List.length_cons, List.length_append]
    omega

end

theorem parseVal_dispatch_num (f : Nat) (c : Char) (cs : List Char)
    (h : isDigitC c = true ∨ c = '-') :
    parseVal (f + 1) (c :: cs) = parseNum (c :: cs) := by
  have hs : c ≠ 'n' ∧ c ≠ 't' ∧ c ≠ 'f' ∧ c ≠ '"' ∧ c ≠ '[' ∧ c ≠ lbraceC := by
    rcases h with h | h
    · refine ⟨?_, ?_, ?_, ?_, ?_, ?_⟩ <;>
        (intro he; subst he; exact absurd h (by decide))
    · subst h
      exact ⟨by decide, by decide, by decide, by decide, by decide, by decide⟩
  obtain ⟨h1, h2, h3, h4, h5, h6⟩ := hs
  simp only [parseVal, if_neg h1, if_neg h2, if_neg h3, if_neg h4, if_neg h5, if_neg h6]

theorem parseVal_lbracket (f : Nat) (c' : Char) (r : List Char) (h : c' ≠ ']') :
    parseVal (f + 1) ('[' :: c' :: r) =
      (match parseElems f (c' :: r) with
       | some (vs, r') => some (.arr vs, r')
       | none => none) := by
  simp [parseVal, h]

theorem parseVal_lbrace (f : Nat) (c' : Char) (r : List Char) (h : c' ≠ rbraceC) :
    parseVal (f + 1) (lbraceC :: c' :: r) =
      (match parseFields f (c' :: r) with
       | some (fs, r') => some (.obj fs, r') | none => none) := by
  have hn : lbraceC ≠ 'n' := by decide
  have ht : lbraceC ≠ 't' := by decide
  have hf : lbraceC ≠ 'f' := by decide
  have hq : lbraceC ≠ '"' := by decide
  have hb : lbraceC ≠ '[' := by decide
  simp [parseVal, h, hn, ht, hf, hq, hb]

theorem parseFields_quote (f : Nat) (cs' : List Char) :
    parseFields (f + 1) ('"' :: cs') =
      (match parseStrBody cs' with
       | some (k, r) =>
         (match r with
          | [] => none
          | c₁ :: r' =>
            if c₁ = ':' then
              match parseVal f r' with
              | some (v, r'') =>
                (match r'' with
                 | [] => none
                 | c₄ :: r₃ =>
                   if c₄ = ',' then
                     (parseFields f r₃).map (fun p => ((⟨k⟩, v) :: p.1, p.2))
                   else if c₄ = rbraceC then some ([(⟨k⟩, v)], r₃)
                   else none)
              | none => none
            else none)
       | none => none) := by
  simp [parseFields]

mutual

theorem parseVal_jchars : ∀ (f : Nat) (v : JSVal) (rest : List Char),
    JsonOk v = true → jsz v ≤ f → noDigitHead rest = true →
    parseVal f (jchars v ++ rest) = some (v, rest)
  | 0, v, rest => by
    intro _ hsz _
    exact absurd hsz (by have := jsz_pos v; omega)
  | f + 1, v, rest => by
    intro hok hsz hr
    cases v with
    | undefined => exact absurd hok (by simp [JsonOk])
    | null =>
      show parseVal (f + 1) ('n' :: (['u', 'l', 'l'] ++ rest)) = some (.null, rest)
      simp [parseVal, parseLit]
    | bool b =>
      cases b with
      | true =>
        show parseVal (f + 1) ('t' :: (['r', 'u', 'e'] ++ rest)) = some (.bool true, rest)
        simp [parseVal, parseLit]
      | false =>
        show parseVal (f + 1) ('f' :: (['a', 'l', 's', 'e'] ++ rest)) =
          some (.bool false, rest)
        simp [parseVal, parseLit]
    | num n =>
      show parseVal (f + 1) (intChars n ++ rest) = some (.num n, rest)
      obtain ⟨c, t, hct, hd⟩ := intChars_head n
      rw [hct, List.cons_append, parseVal_dispatch_num f c _ hd, ← List.cons_append,
        ← hct, parseNum_intChars n rest hr]
    | str s =>
      show parseVal (f + 1) ('"' :: ((escChars s.data ++ ['"']) ++ rest)) =
        some (.str s, rest)
      rw [List.append_assoc]
      show parseVal (f + 1) ('"' :: (escChars s.data ++ ('"' :: rest))) =
        some (.str s, rest)
      simp [parseVal, parseStrBody_escChars]
    | arr xs =>
      cases xs with
      | nil =>
        show parseVal (f + 1) ('[' :: (']' :: rest)) = some (.arr [], rest)
        simp [parseVal]
      | cons x xs =>
        show parseVal (f + 1)
            ('[' :: ((jchars x ++ (jcharsElems xs ++ [']'])) ++ rest)) =
          some (.arr (x :: xs), rest)
        rw [List.append_assoc, List.append_assoc]
        have hE : parseElems f (jchars x ++ (jcharsElems xs ++ (']' :: rest))) =
            some (x :: xs, rest) := by
          apply parseElems_jchars f x xs rest
          · simpa [JsonOk] using hok
          · have := jsz_pos x
            simp only [jsz] at hsz
            omega
        obtain ⟨c, t, hct, hcne⟩ := jchars_cons x
        rw [hct, List.cons_append, parseVal_lbracket f c _ hcne, ← List.cons_append, ← hct]
        simp [hE]
    | obj fs =>
      cases fs with
      | nil =>
        show parseVal (f + 1) (lbraceC :: (rbraceC :: rest)) = some (.obj [], rest)
        simp [parseVal, lbraceC, rbraceC]
      | cons g gs =>
        obtain ⟨k, v⟩ := g
        show parseVal (f + 1)
            (lbraceC :: ((fieldChars (k, v) ++ (jcharsFields gs ++ [rbraceC])) ++ rest)) =
          some (.obj ((k, v) :: gs), rest)
        rw [List.append_assoc, List.append_assoc]
        have hF : parseFields f
            (fieldChars (k, v) ++ (jcharsFields gs ++ (rbraceC :: rest))) =
            some ((k, v) :: gs, rest) := by
          apply parseFields_jchars f k v gs rest
          · simpa [JsonOk, JsonOkFields, Bool.and_eq_true] using hok
          · simp only [jsz] at hsz
            omega
        show parseVal (f + 1)
            (lbraceC :: ('"' :: ((escChars k.data ++ ('"' :: ':' :: jchars v)) ++
              (jcharsFields gs ++ (rbraceC :: rest))))) = some (.obj ((k, v) :: gs), rest)
        rw [parseVal_lbrace f '"' _ (by decide)]
        show (match parseFields f
            (fieldChars (k, v) ++ (jcharsFields gs ++ (rbraceC :: rest))) with
          | some (fs, r') => some (JSVal.obj fs, r')
          | none => none) = some (.obj ((k, v) :: gs), rest)
        rw [hF]

theorem parseElems_jchars : ∀ (f : Nat) (x : JSVal) (xs : List JSVal) (rest : List Char),
    JsonOkElems (x :: xs) = true → jszElems (x :: xs) ≤ f →
    parseElems f (jchars x ++ (jcharsElems xs ++ (']' :: rest))) = some (x :: xs, rest)
  | 0, x, xs, rest => by
    intro _ hsz
    exact absurd hsz (by simp [jszElems])
  | f + 1, x, xs, rest => by
    intro hok hsz
    have hokx : JsonOk x = true := by
      simp only [JsonOkElems, Bool.and_eq_true] at hok
      exact hok.1
    have hokxs : JsonOkElems xs = true := by
      simp only [JsonOkElems, Bool.and_eq_true] at hok
      exact hok.2
    have hx : jsz x ≤ f := by
      simp only [jszElems] at hsz
      omega
    have hnd : noDigitHead (jcharsElems xs ++ (']' :: rest)) = true := by
      cases xs with
      | nil => rfl
      | cons y ys => rfl
    simp only [parseElems]
    rw [parseVal_jchars f x _ hokx hx hnd]
    cases xs with
    | nil =>
      show (match (']' :: rest : List Char) with
        | [] => none
        | c :: r' =>
          if c = ',' then (parseElems f r').map (fun p => (x :: p.1, p.2))
          else if c = ']' then some ([x], r')
          else none) = some ([x], rest)
      simp
    | cons y ys =>
      show (match (',' :: ((jchars y ++ jcharsElems ys) ++ (']' :: rest)) : List Char) with
        | [] => none
        | c :: r' =>
          if c = ',' then (parseElems f r').map (fun p => (x :: p.1, p.2))
          else if c = ']' then some ([x], r')
          else none) = some (x :: y :: ys, rest)
      have hrec : parseElems f (jchars y ++ (jcharsElems ys ++ (']' :: rest))) =
          some (y :: ys, rest) := by
        apply parseElems_jchars f y ys rest hokxs
        have := jsz_pos x
        simp only [jszElems] at hsz ⊢
        omega
      simp only [List.append_assoc]
      simp [hrec]

theorem parseFields_jchars : ∀ (f : Nat) (k : String) (v : JSVal)
    (fs : List (String × JSVal)) (rest : List Char),
    (JsonOk v && JsonOkFields fs) = true → jszFields ((k, v) :: fs) ≤ f →
    parseFields f (fieldChars (k, v) ++ (jcharsFields fs ++ (rbraceC :: rest))) =
      some ((k, v) :: fs, rest)
  | 0, k, v, fs, rest => by
    intro _ hsz
    exact absurd hsz (by simp [jszFields])
  | f + 1, k, v, fs, rest => by
    intro hok hsz
    have hokv : JsonOk v = true := by
      simp only [Bool.and_eq_true] at hok
      exact hok.1
    have hokfs : JsonOkFields fs = true := by
      simp only [Bool.and_eq_true] at hok
      exact hok.2
    have hv : jsz v ≤ f := by
      simp only [jszFields] at hsz
      omega
    have hnd : noDigitHead (jcharsFields fs ++ (rbraceC :: rest)) = true := by
      cases fs with
      | nil => rfl
      | cons g gs => rfl
    show parseFields (f + 1)
        ('"' :: ((escChars k.data ++ ('"' :: ':' :: jchars v)) ++
          (jcharsFields fs ++ (rbraceC :: rest)))) = some ((k, v) :: fs, rest)
    rw [parseFields_quote, List.append_assoc]
    simp only [List.cons_append]
    rw [parseStrBody_escChars]
    simp only [if_true]
    rw [parseVal_jchars f v _ hokv hv hnd]
    cases fs with
    | nil =>
      show (match (rbraceC :: rest : List Char) with
        | [] => none
        | c₄ :: r₃ =>
          if c₄ = ',' then (parseFields f r₃).map (fun p => ((⟨k.data⟩, v) :: p.1, p.2))
          else if c₄ = rbraceC then some ([(⟨k.data⟩, v)], r₃)
          else none) = some ([(k, v)], rest)
      simp [rbraceC]
    | cons g gs =>
      obtain ⟨k', v'⟩ := g
      show (match (',' :: ((fieldChars (k', v') ++ jcharsFields gs) ++ (rbraceC :: rest)) :
          List Char) with
        | [] => none
        | c₄ :: r₃ =>
          if c₄ = ',' then (parseFields f r₃).map (fun p => ((⟨k.data⟩, v) :: p.1, p.2))
          else if c₄ = rbraceC then some ([(⟨k.data⟩, v)], r₃)
          else none) = some ((k, v) :: (k', v') :: gs, rest)
      have hrec : parseFields f
          (fieldChars (k', v') ++ (jcharsFields gs ++ (rbraceC :: rest))) =
          some ((k', v') :: gs, rest) := by
        apply parseFields_jchars f k' v' gs rest
        · simpa [JsonOkFields] using hokfs
        · have := jsz_pos v
          simp only [jszFields] at hsz ⊢
          omega
      simp only [List.append_assoc]
      simp [hrec]

end

/-- Printing any JSON-representable value and parsing it back yields the
same value: `JSON.parse (JSON.stringify v) = v`. -/
theorem parseJson_jstringify (v : JSVal) (h : JsonOk v = true) :
    parseJson (jstringify v) = some v := by
  have hfuel : jsz v ≤ (jstringify v).length + 1 := by
    have h1 := jsz_le_len v
    have h2 : (jstringify v).length = (jchars v).length := rfl
    omega
  have hmain := parseVal_jchars ((jstringify v).length + 1) v [] h hfuel rfl
  rw [List.append_nil] at hmain
  unfold parseJson
  have hdata : (jstringify v).data = jchars v := rfl
  rw [hdata, hmain]

/-- After folding `collectName` over a record list, a key's entry is the one
of the last record whose id matches it (or whatever the initial map held). -/
theorem mapGet_foldl_collectName (rs : List JSVal) (m : NamesMap) (k : JSVal) :
    mapGet (rs.foldl collectName m) k =
      match rs.reverse.find? (fun r => jeq (idOf r) k) with
      | some r => some (entryOf r)
      | none => mapGet m k := by
  induction rs generalizing m with
  | nil => simp
  | cons r rs ih =>
    simp only [List.foldl_cons, List.reverse_cons, List.find?_append, ih, collectName_eq]
    cases hfind : rs.reverse.find? (fun r => jeq (idOf r) k) with
    | some e => simp
    | none =>
      simp only
      by_cases hk : jeq (idOf r) k
      · simp [hk, mapGet_mapSet, List.find?]
      · simp [hk, mapGet_mapSet, List.find?]

/-! ## Zip archive model and payload extraction

`jszip` entries carry a `name`, a directory flag `dir`, and content
accessors.  An entry's `data` is `none` when decoding its content
(`async('string')` / `async('blob')`) would reject, modelling a corrupt
entry; decoding rejections propagate as thrown errors (`Except.error`). -/

/-- One archive entry as exposed by `jszip` (`zipEntry.name`,
`zipEntry.dir`, and its decodable content). -/
structure ZipEntry where
  name : String
  dir : Bool
  data : Option String
  deriving DecidableEq

/-- A loaded `jszip` archive: its entries (as the name-keyed `zip.files`
dictionary, in enumeration order). -/
structure Zip where
  entries : List ZipEntry
  deriving DecidableEq

/-- The characters after the last `'.'` of the list, or `none` when no
`'.'` occurs. -/
def lastExt : List Char → Option (List Char)
  | [] => none
  | c :: cs =>
    match lastExt cs with
    | some e => some e
    | none => if c = '.' then some cs else none

/-- `name.split('.').pop()`: the final dot-separated component of the
name — the suffix after the last dot, or the whole name when it contains
no dot. -/
def jsSplitPop (s : String) : String :=
  match lastExt s.data with
  | some e => ⟨e⟩
  | none => s

/-- The filter callback of `getJsonFromZip`:
`!zipEntry.dir && zipEntry.name.split('.').pop() === 'json'`. -/
def docMatch (e : ZipEntry) : Bool :=
  !e.dir && (jsSplitPop e.name == "json")

/-- The filter callback of `getImagesFromZip`:
`!zipEntry.dir && ['jpg', 'gif', 'png'].includes(zipEntry.name.split('.').pop())`. -/
def imgMatch (e : ZipEntry) : Bool :=
  !e.dir && (["jpg", "gif", "png"].contains (jsSplitPop e.name))

/-- `zip.file(name)`: entry lookup by name. -/
def zipFile (z : Zip) (n : String) : Option ZipEntry :=
  z.entries.find? (fun e => e.name == n)

/-- Modelled from the spec: `URL.createObjectURL` produces a stable,
dereferenceable handle for decoded binary content. -/
def createObjectURL (content : String) : String := "blob:" ++ content

/-- Modelled from the spec: dereferencing a handle produced by
`createObjectURL` recovers the decoded content. -/
def derefObjectURL (u : String) : Option String :=
  if u.data.take 5 = "blob:".data then some ⟨u.data.drop 5⟩ else none

/-- The image record `getImagesFromZip` builds for one entry:
`{ blobUrl, id: file.name }`. -/
def imageOf (content : String) (name : String) : JSVal :=
  .obj [("blobUrl", .str (createObjectURL content)), ("id", .str name)]

/-- `getJsonFromZip`: filters entries to `.json` names, returns `false`
when none match, otherwise decodes the first match as text and parses it,
returning `false` when parsing throws.  `Except.error` models a rejected
content decode. -/
def getJsonFromZip (z : Zip) : Except Unit JSVal :=
  let files := z.entries.filter docMatch
  match files with
  | [] => .ok (.bool false)
  | e :: _ =>
    match zipFile z e.name with
    | none => .error ()
    | some ent =>
      match ent.data with
      | none => .error ()
      | some s =>
        match parseJson s with
        | some j => .ok j
        | none => .ok (.bool false)

/-- Sequencing of the per-entry decodes: the first rejection rejects the
whole batch (`Promise.all` semantics). -/
def exMapM (f : ZipEntry → Except Unit JSVal) : List ZipEntry → Except Unit (List JSVal)
  | [] => .ok []
  | e :: es =>
    match f e with
    | .error er => .error er
    | .ok v =>
      match exMapM f es with
      | .error er => .error er
      | .ok vs => .ok (v :: vs)

/-- The per-entry decode of `getImagesFromZip`:
`zip.file(file.name).async('blob')` and the `{ blobUrl, id }` record. -/
def decodeImage (z : Zip) (e : ZipEntry) : Except Unit JSVal :=
  match zipFile z e.name with
  | none => .error ()
  | some ent =>
    match ent.data with
    | none => .error ()
    | some s => .ok (imageOf s e.name)

/-- `getImagesFromZip`: filters entries to image names and decodes each to
a blob with an object URL; any single rejection rejects the whole batch
(`Promise.all` semantics). -/
def getImagesFromZip (z : Zip) : Except Unit (List JSVal) :=
  exMapM (decodeImage z) (z.entries.filter imgMatch)

/-- A dropped file (`acceptedFiles[0]`): its declared MIME type, its
stringified `lastModifiedDate` when present, the zip archive its bytes
load as (`none` when `jszip.loadAsync` rejects), and its text content as
read by `readBlobFile`. -/
structure DroppedFile where
  ftype : String
  lastModifiedDate : Option String
  zipData : Option Zip
  text : String
  deriving DecidableEq

/-- `extractZip`: load the archive, extract the document and the images;
a rejected load or decode propagates. -/
def extractZip (file : DroppedFile) : Except Unit (JSVal × List JSVal) :=
  match file.zipData with
  | none => .error ()
  | some z =>
    match getJsonFromZip z with
    | .error er => .error er
    | .ok json =>
      match getImagesFromZip z with
      | .error er => .error er
      | .ok images => .ok (json, images)

/-! ## The App state and the drop handler -/

/-- The React state of `App` that `onDrop` and the cache touch:
`profile`, `profileImages`, `names`, `fileDate`, `isProcessing`. -/
structure AppState where
  profile : JSVal
  profileImages : JSVal
  names : NamesMap
  fileDate : String
  isProcessing : Bool
  deriving DecidableEq

/-- How one `onDrop` call exits. -/
inductive Outcome where
  | noFiles : Outcome
  | multipleFiles : Outcome
  | unsupportedType : Outcome
  | noDocument : Outcome
  | malformedDocument : Outcome
  | success : Outcome
  | thrown : Outcome
  deriving DecidableEq

/-- The `onDrop` callback.  Its state writes are modelled as functional
updates on `AppState`; the returned `Outcome` tags which exit was taken
(each rejection shows an `alert`; `thrown` is an uncaught rejection of
`extractZip`, after which no further statement of the handler runs). -/
def onDrop (st0 : AppState) (acceptedFiles : List DroppedFile) : AppState × Outcome :=
  let st := { st0 with isProcessing := true }
  if acceptedFiles.length = 0 then
    ({ st with isProcessing := false }, .noFiles)
  else if acceptedFiles.length ≠ 1 then
    ({ st with isProcessing := false }, .multipleFiles)
  else
    match acceptedFiles with
    | [] => ({ st with isProcessing := false }, .noFiles)
    | file :: _ =>
      if !(["application/zip", "application/json"].contains file.ftype) then
        ({ st with isProcessing := false }, .unsupportedType)
      else
        let st := match file.lastModifiedDate with
          | some d => { st with fileDate := d }
          | none => st
        if file.ftype == "application/zip" then
          match extractZip file with
          | .error _ => (st, .thrown)
          | .ok (json, images) =>
            if !truthy json then
              ({ st with isProcessing := false }, .noDocument)
            else
              ({ st with
                  profile := json
                  names := getNamesFromJson json
                  profileImages := .arr images
                  isProcessing := false }, .success)
        else
          match parseJson file.text with
          | some json =>
            ({ st with
                profile := json
                names := getNamesFromJson json
                isProcessing := false }, .success)
          | none => ({ st with isProcessing := false }, .malformedDocument)

/-! ## Session cache

`sessionStorage` is modelled as a key-to-value map; `ExStorage` returns
`Except`, `error` modelling a thrown storage access (storage disabled or
failing).  `JSON.parse(getItem(k))` on an absent key parses the coerced
string `"null"`, giving `null`. -/

/-- The key namespace (`STORAGE_PREFIX` from `src/constants`, whose value
is not among the provided sources; spec: "Keys are namespaced under a
shared prefix").  Its concrete value is irrelevant to every claim. -/
def STORAGE_NS : String := "couchspinner"

/-- `` `${STORAGE_PREFIX}_${key}` ``. -/
def cacheKey (k : String) : String := STORAGE_NS ++ "_" ++ k

/-- A working `sessionStorage` content. -/
def Storage := String → Option String

/-- `setCacheValue` on working storage (its `try/catch` swallows failures;
on working storage the write succeeds). -/
def setCacheValue (σ : Storage) (k v : String) : Storage :=
  fun k' => if k' = cacheKey k then some v else σ k'

/-- The `useEffect` cache mirror: stores `file_date`, then
`profile_images`, then `profile` (each via `setCacheValue`; the two JSON
values go through `JSON.stringify`). -/
def saveToCache (st : AppState) (σ : Storage) : Storage :=
  let σ := setCacheValue σ "file_date" st.fileDate
  let σ := setCacheValue σ "profile_images" (jstringify st.profileImages)
  let σ := setCacheValue σ "profile" (jstringify st.profile)
  σ

/-- A `sessionStorage` access that may throw. -/
def ExStorage := String → Except Unit (Option String)

/-- A working storage never throws. -/
def liftStore (σ : Storage) : ExStorage := fun k => .ok (σ k)

/-- A storage whose every access throws. -/
def throwingStore : ExStorage := fun _ => .error ()

/-- The record `loadFromCache` returns; `none` fields model variables left
`undefined` when the `try` block threw before assigning them. -/
structure CachedState where
  cachedFileDate : Option (Option String)
  cachedNames : Option NamesMap
  cachedProfile : Option JSVal
  cachedProfileImages : Option JSVal
  deriving DecidableEq

/-- `JSON.parse(getItem(key))`: an absent item (`null`) is coerced to the
text `"null"` and parses to `null`; bad text throws (`none`). -/
def jsParseOfItem : Option String → Option JSVal
  | none => some .null
  | some s => parseJson s

/-- `loadFromCache`: reads `file_date`, parses `profile`, parses
`profile_images`, then derives `cachedNames` from a truthy profile;
a throw anywhere is caught, keeping the variables assigned so far. -/
def loadFromCache (σ : ExStorage) : CachedState :=
  match σ (cacheKey "file_date") with
  | .error _ => ⟨none, none, none, none⟩
  | .ok fd =>
    match σ (cacheKey "profile") with
    | .error _ => ⟨some fd, none, none, none⟩
    | .ok pRaw =>
      match jsParseOfItem pRaw with
      | none => ⟨some fd, none, none, none⟩
      | some p =>
        match σ (cacheKey "profile_images") with
        | .error _ => ⟨some fd, none, some p, none⟩
        | .ok iRaw =>
          match jsParseOfItem iRaw with
          | none => ⟨some fd, none, some p, none⟩
          | some imgs =>
            let nm := if truthy p then some (getNamesFromJson p) else none
            ⟨some fd, nm, some p, some imgs⟩

/-- `EXAMPLE_PROFILE` (the empty string). -/
def EXAMPLE_PROFILE : JSVal := .str ""

/-- The initial `useState` values of `App`: cached values when storage is
available (each defaulted through `||` / `|| []` / `|| new Map()` /
`|| ''`), defaults otherwise. -/
def appInit (isStorageAvailable : Bool) (σ : ExStorage) : AppState :=
  let c := if isStorageAvailable then loadFromCache σ else ⟨none, none, none, none⟩
  { profile :=
      match c.cachedProfile with
      | some p => if truthy p then p else EXAMPLE_PROFILE
      | none => EXAMPLE_PROFILE
    profileImages :=
      match c.cachedProfileImages with
      | some v => if truthy v then v else .arr []
      | none => .arr []
    names := c.cachedNames.getD []
    fileDate :=
      match c.cachedFileDate with
      | some (some s) => s
      | _ => ""
    isProcessing := false }

/-! ## Supporting lemmas about the extractor -/

theorem zipFile_find (z : Zip) (e : ZipEntry) (hmem : e ∈ z.entries)
    (hnodup : (z.entries.map ZipEntry.name).Nodup) :
    zipFile z e.name = some e := by
  unfold zipFile
  obtain ⟨entries⟩ := z
  simp only at hmem hnodup ⊢
  induction entries with
  | nil => cases hmem
  | cons a rest ih =>
    rcases List.mem_cons.mp hmem with rfl | hmem'
    · simp [List.find?]
    · have hne : a.name ≠ e.name := by
        intro hname
        have : e.name ∈ rest.map ZipEntry.name := List.mem_map_of_mem _ hmem'
        rw [List.map_cons, List.nodup_cons] at hnodup
        exact hnodup.1 (hname ▸ this)
      rw [List.find?]
      have : (a.name == e.name) = false := by simp [hne]
      rw [this]
      exact ih hmem' (by rw [List.map_cons, List.nodup_cons] at hnodup; exact hnodup.2)

theorem exMapM_ok (f : ZipEntry → Except Unit JSVal) (g : ZipEntry → JSVal)
    (L : List ZipEntry) (h : ∀ e ∈ L, f e = .ok (g e)) :
    exMapM f L = .ok (L.map g) := by
  induction L with
  | nil => rfl
  | cons a L ih =>
    rw [exMapM, h a (List.mem_cons_self a L),
      ih (fun e he => h e (List.mem_cons_of_mem a he))]
    rfl

theorem deref_createObjectURL (s : String) :
    derefObjectURL (createObjectURL s) = some s := by
  unfold derefObjectURL createObjectURL
  have hdata : ("blob:" ++ s).data = "blob:".data ++ s.data := String.data_append ..
  have hlen : ("blob:".data).length = 5 := rfl
  rw [hdata, List.take_left' hlen, if_pos rfl, List.drop_left' hlen]

theorem getImagesFromZip_ok (z : Zip)
    (hnodup : (z.entries.map ZipEntry.name).Nodup)
    (hdec : ∀ e ∈ z.entries.filter imgMatch, e.data.isSome = true) :
    getImagesFromZip z =
      .ok ((z.entries.filter imgMatch).map
        (fun e => imageOf (e.data.getD "") e.name)) := by
  unfold getImagesFromZip
  apply exMapM_ok
  intro e he
  have hmem : e ∈ z.entries := (List.mem_filter.mp he).1
  unfold decodeImage
  rw [zipFile_find z e hmem hnodup]
  obtain ⟨s, hs⟩ := Option.isSome_iff_exists.mp (hdec e he)
  dsimp only
  rw [hs]
  rfl

theorem getJsonFromZip_single (z : Zip) (e : ZipEntry) (rest : List ZipEntry)
    (hnodup : (z.entries.map ZipEntry.name).Nodup)
    (hfilter : z.entries.filter docMatch = e :: rest) :
    getJsonFromZip z =
      (match e.data with
       | none => .error ()
       | some s =>
         match parseJson s with
         | some j => .ok j
         | none => .ok (.bool false)) := by
  have hmem : e ∈ z.entries :=
    (List.mem_filter.mp (hfilter ▸ List.mem_cons_self e rest)).1
  unfold getJsonFromZip
  rw [hfilter]
  simp only
  rw [zipFile_find z e hmem hnodup]

/-! ## Claim theorems -/

/-- C2 counterexample: the claim "isProcessing is false on every exit
path" fails on the code.  When `jszip.loadAsync` rejects (corrupt
archive), `await extractZip(file)` throws out of `onDrop` before any
`setIsProcessing(false)` runs, leaving the Processing flag set. -/
theorem c2_counterexample :
    (onDrop ⟨.str "p", .arr [], [], "old", false⟩
      [⟨"application/zip", none, none, ""⟩]).1.isProcessing = true ∧
    (onDrop ⟨.str "p", .arr [], [], "old", false⟩
      [⟨"application/zip", none, none, ""⟩]).2 = .thrown := by
  exact ⟨rfl, rfl⟩

/-- C2 (amended): the Processing flag is set on entry to `onDrop` and is
cleared on every exit that does not throw — the input-count rejections,
the unsupported-type rejection, `NoDocumentFound`, `MalformedDocument`,
and both success paths.  When archive loading or an asset decode throws
(outcome `thrown`), the flag remains set. -/
theorem c2_processing_cleared (st : AppState) (files : List DroppedFile)
    (h : (onDrop st files).2 ≠ .thrown) :
    (onDrop st files).1.isProcessing = false := by
  rcases hp : onDrop st files with ⟨st', oc⟩
  rw [hp] at h
  simp only
  simp only [onDrop] at hp
  repeat' split at hp
  all_goals cases hp
  all_goals first | rfl | exact absurd rfl h

/-- C2 witness: a successful json-file drop exits with the flag cleared. -/
theorem c2_witness :
    (onDrop ⟨.str "", .arr [], [], "", false⟩
      [⟨"application/json", none, none, "2"⟩]).1.isProcessing = false :=
  c2_processing_cleared ⟨.str "", .arr [], [], "", false⟩
    [⟨"application/json", none, none, "2"⟩] (by decide)

/-- C1 counterexample: the claim "the entire prior SessionState — ...
and fileDate — is left unchanged" fails on the code.  `onDrop` records
`file.lastModifiedDate` into `fileDate` (lines 211-213) before the
document check, so a zero-document archive still overwrites `fileDate`. -/
theorem c1_counterexample :
    ((onDrop ⟨.str "p", .arr [], [], "old", false⟩
        [⟨"application/zip", some "new", some ⟨[]⟩, ""⟩]).2 = .noDocument) ∧
    (onDrop ⟨.str "p", .arr [], [], "old", false⟩
        [⟨"application/zip", some "new", some ⟨[]⟩, ""⟩]).1.fileDate = "new" ∧
    "new" ≠ "old" := by
  exact ⟨rfl, rfl, by decide⟩

/-- C1 (amended): ingesting a single archive file whose archive contains
zero document entries (and whose image entries all decode) fails with
`NoDocumentFound`; the document, assets and identity index of the prior
SessionState are unchanged and the handler returns with the Processing
flag cleared — but `fileDate` is overwritten with the file's
last-modified timestamp when the file carries one. -/
theorem c1_noDocument_frame (st : AppState) (lmd : Option String) (z : Zip)
    (txt : String) (hdoc : z.entries.filter docMatch = [])
    (himg : ∃ imgs, getImagesFromZip z = .ok imgs) :
    onDrop st [⟨"application/zip", lmd, some z, txt⟩] =
      ({ st with
          fileDate := match lmd with | some d => d | none => st.fileDate
          isProcessing := false }, .noDocument) := by
  obtain ⟨imgs, himgs⟩ := himg
  have hjson : getJsonFromZip z = .ok (.bool false) := by
    unfold getJsonFromZip
    rw [hdoc]
  have hx : extractZip ⟨"application/zip", lmd, some z, txt⟩ =
      .ok (.bool false, imgs) := by
    unfold extractZip
    simp only [hjson, himgs]
  simp only [onDrop, hx]
  cases lmd <;> simp [truthy]

/-- C1 witness. -/
theorem c1_witness :
    onDrop ⟨.str "p", .arr [], [], "old", false⟩
        [⟨"application/zip", some "new", some ⟨[]⟩, ""⟩] =
      (⟨.str "p", .arr [], [], "new", false⟩, .noDocument) :=
  c1_noDocument_frame ⟨.str "p", .arr [], [], "old", false⟩ (some "new") ⟨[]⟩ ""
    (by decide) ⟨[], rfl⟩

/-- C3 counterexample: the claim "the committed SessionState consists of
the parsed Document, an empty Assets list, ... no field of the prior
state partially retained" fails on the code.  The `application/json`
branch never calls `setProfileImages`, so the prior asset list survives a
successful raw-document ingestion. -/
theorem c3_counterexample :
    ((onDrop ⟨.str "p", .arr [.str "stale"], [], "", false⟩
        [⟨"application/json", none, none, "2"⟩]).2 = .success) ∧
    (onDrop ⟨.str "p", .arr [.str "stale"], [], "", false⟩
        [⟨"application/json", none, none, "2"⟩]).1.profileImages =
      .arr [.str "stale"] ∧
    (.arr [.str "stale"] : JSVal) ≠ .arr [] := by
  exact ⟨rfl, rfl, by decide⟩

/-- C3 (amended): a successful raw-document ingestion commits the parsed
Document and the derived IdentityIndex (and the file timestamp when
present) and clears the Processing flag, but does NOT clear the Assets
list: `profileImages` keeps its previous value. -/
theorem c3_json_commit (st : AppState) (lmd : Option String) (zd : Option Zip)
    (txt : String) (d : JSVal) (hparse : parseJson txt = some d) :
    onDrop st [⟨"application/json", lmd, zd, txt⟩] =
      ({ st with
          profile := d
          names := getNamesFromJson d
          fileDate := match lmd with | some s => s | none => st.fileDate
          isProcessing := false }, .success) ∧
    (onDrop st [⟨"application/json", lmd, zd, txt⟩]).1.profileImages =
      st.profileImages := by
  have hmain : onDrop st [⟨"application/json", lmd, zd, txt⟩] =
      ({ st with
          profile := d
          names := getNamesFromJson d
          fileDate := match lmd with | some s => s | none => st.fileDate
          isProcessing := false }, .success) := by
    simp only [onDrop, hparse]
    cases lmd <;> simp
  exact ⟨hmain, by rw [hmain]⟩

/-- C3 witness. -/
theorem c3_witness :
    onDrop ⟨.str "p", .arr [.str "stale"], [], "", false⟩
        [⟨"application/json", none, none, "2"⟩] =
      (⟨.num 2, .arr [.str "stale"], [], "", false⟩, .success) :=
  (c3_json_commit ⟨.str "p", .arr [.str "stale"], [], "", false⟩ none none "2"
    (.num 2) (by decide)).1

/-- C4 counterexample: the claim "for every archive containing exactly one
well-formed structured-data entry ... ingestion succeeds" fails on the
code.  `onDrop` guards the commit with `if (!json)`, so a document entry
whose well-formed JSON text parses to a falsy value (here `null`) is
treated as `NoDocumentFound` instead of succeeding. -/
theorem c4_counterexample :
    parseJson "null" = some .null ∧
    ((onDrop ⟨.str "", .arr [], [], "", false⟩
        [⟨"application/zip", none, some ⟨[⟨"p.json", false, some "null"⟩]⟩, ""⟩]).2 =
      .noDocument) ∧
    (Outcome.noDocument ≠ .success) := by
  refine ⟨rfl, by decide, by decide⟩

/-- C4 (amended): for an archive (with distinct entry names) whose doc
filter selects exactly one entry, whose text decodes and parses to a
TRUTHY document, and whose image entries all decode, ingestion succeeds:
the committed Document is the parse of that entry, and the committed
Assets are exactly one record per image entry, each carrying the entry's
source name and a dereferenceable object-URL handle on its content. -/
theorem c4_zip_success (st : AppState) (lmd : Option String) (txt : String)
    (z : Zip) (e : ZipEntry) (ds : String) (d : JSVal)
    (hnodup : (z.entries.map ZipEntry.name).Nodup)
    (hdoc : z.entries.filter docMatch = [e])
    (hdata : e.data = some ds)
    (hparse : parseJson ds = some d)
    (htruthy : truthy d = true)
    (himg : ∀ e' ∈ z.entries.filter imgMatch, e'.data.isSome = true) :
    onDrop st [⟨"application/zip", lmd, some z, txt⟩] =
      ({ st with
          profile := d
          names := getNamesFromJson d
          profileImages := .arr ((z.entries.filter imgMatch).map
            (fun e' => imageOf (e'.data.getD "") e'.name))
          fileDate := match lmd with | some s => s | none => st.fileDate
          isProcessing := false }, .success) ∧
    ((z.entries.filter imgMatch).map
        (fun e' => imageOf (e'.data.getD "") e'.name)).length =
      (z.entries.filter imgMatch).length ∧
    ∀ e' ∈ z.entries.filter imgMatch,
      derefObjectURL (createObjectURL (e'.data.getD "")) = some (e'.data.getD "") := by
  have hjson : getJsonFromZip z = .ok d := by
    rw [getJsonFromZip_single z e [] hnodup hdoc, hdata]
    simp [hparse]
  have himgs := getImagesFromZip_ok z hnodup himg
  have hx : extractZip ⟨"application/zip", lmd, some z, txt⟩ =
      .ok (d, (z.entries.filter imgMatch).map
        (fun e' => imageOf (e'.data.getD "") e'.name)) := by
    unfold extractZip
    simp only [hjson, himgs]
  refine ⟨?_, List.length_map .., fun e' _ => deref_createObjectURL _⟩
  simp only [onDrop, hx, htruthy]
  cases lmd <;> simp [htruthy]

/-- C5 (confirmed): `getNamesFromJson` processes the host collection
first, then the surfer collection, each in order — the resulting map is
the fold of `collectName` over `H ++ S` — and for any key the entry in
the index is the one of the LAST record (in that processing order) whose
extracted personId matches it, absent ids (`undefined`) collapsing onto
the single `undefined` slot.  The primitivity hypothesis restricts the
statement to ids on which structural equality agrees with JavaScript's
`SameValueZero` key comparison. -/
theorem c5_later_record_wins (H S : List JSVal) (k : JSVal)
    (hprim : ∀ r ∈ H ++ S, isPrim (idOf r) = true) :
    getNamesFromJson (mkVisitsJson H S) = (H ++ S).foldl collectName [] ∧
    mapGet (getNamesFromJson (mkVisitsJson H S)) k =
      ((H ++ S).reverse.find? (fun r => jeq (idOf r) k)).map entryOf := by
  have horder : getNamesFromJson (mkVisitsJson H S) = (H ++ S).foldl collectName [] := by
    have h1 : optChain (optChain (mkVisitsJson H S) "couch_visits") "host_couch_visits" =
        .arr H := rfl
    have h2 : optChain (optChain (mkVisitsJson H S) "couch_visits") "surfer_couch_visits" =
        .arr S := rfl
    simp only [getNamesFromJson, h1, h2]
    simp [truthy, elemsOf, List.foldl_append]
  refine ⟨horder, ?_⟩
  rw [horder, mapGet_foldl_collectName]
  cases hfind : (H ++ S).reverse.find? (fun r => jeq (idOf r) k) with
  | some r => simp
  | none => simp [mapGet]

/-- C5 witness: two records with the same personId 1, the later
(surfer-side) record's names win. -/
theorem c5_witness :
    (∀ r ∈ ([.obj [("surfer", .obj [("profile", .obj [("id", .num 1),
          ("display_name", .str "A")]), ("username", .str "ua")])]] ++
        [.obj [("host", .obj [("profile", .obj [("id", .num 1),
          ("display_name", .str "B")]), ("username", .str "ub")])]] : List JSVal),
      isPrim (idOf r) = true) ∧
    mapGet (getNamesFromJson (mkVisitsJson
        [.obj [("surfer", .obj [("profile", .obj [("id", .num 1),
          ("display_name", .str "A")]), ("username", .str "ua")])]]
        [.obj [("host", .obj [("profile", .obj [("id", .num 1),
          ("display_name", .str "B")]), ("username", .str "ub")])]])) (.num 1) =
      some ⟨.str "B", .str "ub"⟩ := by
  constructor
  · decide
  · rw [(c5_later_record_wins
      [.obj [("surfer", .obj [("profile", .obj [("id", .num 1),
        ("display_name", .str "A")]), ("username", .str "ua")])]]
      [.obj [("host", .obj [("profile", .obj [("id", .num 1),
        ("display_name", .str "B")]), ("username", .str "ub")])]]
      (.num 1) (by decide)).2]
    decide

/-- The claim's reading of the username extraction: taken from the
person's nested profile sub-object (`person?.profile?.username`).
Stated only to be refuted against `collectName`. -/
def specUsernameOf (visit : JSVal) : JSVal :=
  optChain (optChain (personOf visit) "profile") "username"

/-- C6 counterexample: the claim "both the personId and the
username/display_name ... are extracted from that person's nested
profile sub-object" fails on the code.  `collectName` reads `username`
from the person object itself (`person?.username`), not from the
profile: for a record whose profile carries `username: "alice"` but
whose person has no top-level `username`, the stored username is
`undefined`, not `"alice"`. -/
theorem c6_counterexample :
    specUsernameOf (.obj [("surfer", .obj [("profile",
        .obj [("id", .num 1), ("username", .str "alice"),
          ("display_name", .str "A")])])]) = .str "alice" ∧
    getNamesFromJson (mkVisitsJson [.obj [("surfer", .obj [("profile",
        .obj [("id", .num 1), ("username", .str "alice"),
          ("display_name", .str "A")])])]] []) =
      [(.num 1, ⟨.str "A", .undefined⟩)] ∧
    (JSVal.undefined ≠ .str "alice") := by
  refine ⟨rfl, rfl, by decide⟩

/-- C6 (amended): for every visit record the person sub-object is
`visit?.surfer || visit?.host || {}`; the stored personId and
display_name come from the person's nested profile
(`person?.profile?.id`, `person?.profile?.display_name`), while the
stored username comes from the person object itself
(`person?.username`); records missing the person, the profile, or any
field yield `undefined` values rather than errors. -/
theorem c6_extraction (m : NamesMap) (uVal idVal dVal : JSVal) :
    collectName m (.obj [("surfer",
        .obj [("username", uVal),
          ("profile", .obj [("id", idVal), ("display_name", dVal)])])]) =
      mapSet m idVal ⟨dVal, uVal⟩ ∧
    collectName m (.obj [("surfer", .obj [("username", uVal)])]) =
      mapSet m .undefined ⟨.undefined, uVal⟩ ∧
    collectName m (.obj []) = mapSet m .undefined ⟨.undefined, .undefined⟩ ∧
    collectName m .null = mapSet m .undefined ⟨.undefined, .undefined⟩ := by
  refine ⟨rfl, rfl, rfl, rfl⟩

/-- C6 witness. -/
theorem c6_witness :
    collectName [] (.obj [("surfer",
        .obj [("username", .str "u"),
          ("profile", .obj [("id", .num 7), ("display_name", .str "D")])])]) =
      mapSet [] (.num 7) ⟨.str "D", .str "u"⟩ :=
  (c6_extraction [] (.str "u") (.num 7) (.str "D")).1

/-- C10 (confirmed): when the surfer sub-object is present and truthy,
`collectName` uses it and ignores the host sub-object entirely (the
result does not depend on the host value); the host sub-object is used
exactly when the surfer one is absent or falsy. -/
theorem c10_surfer_preferred (m : NamesMap) (s h : JSVal) :
    (truthy s = true →
      collectName m (.obj [("surfer", s), ("host", h)]) =
        collectName m (.obj [("surfer", s)])) ∧
    (truthy s = false →
      collectName m (.obj [("surfer", s), ("host", h)]) =
        collectName m (.obj [("host", h)])) := by
  have hs : optChain (.obj [("surfer", s), ("host", h)]) "surfer" = s := rfl
  have hh : optChain (.obj [("surfer", s), ("host", h)]) "host" = h := rfl
  have hs₂ : optChain (.obj [("surfer", s)]) "surfer" = s := rfl
  have hh₂ : optChain (.obj [("host", h)]) "surfer" = .undefined := rfl
  have hh₃ : optChain (.obj [("host", h)]) "host" = h := rfl
  have hu : truthy .undefined = false := rfl
  constructor
  · intro ht
    simp [collectName, hs, hh, hs₂, jsOr, ht]
  · intro ht
    simp [collectName, hs, hh, hh₂, hh₃, jsOr, ht, hu]

/-- C10 witness. -/
theorem c10_witness :
    truthy (.obj [("profile", .obj [("id", .num 1)])]) = true ∧
    collectName [] (.obj [("surfer", .obj [("profile", .obj [("id", .num 1)])]),
        ("host", .obj [("profile", .obj [("id", .num 2)])])]) =
      collectName [] (.obj [("surfer", .obj [("profile", .obj [("id", .num 1)])])]) :=
  ⟨by decide, (c10_surfer_preferred [] _ _).1 (by decide)⟩

theorem loadFromCache_names (σ : ExStorage) (d : JSVal)
    (hp : (loadFromCache σ).cachedProfile = some d)
    (hpi : (loadFromCache σ).cachedProfileImages.isSome = true)
    (ht : truthy d = true) :
    (loadFromCache σ).cachedNames = some (getNamesFromJson d) := by
  cases h1 : σ (cacheKey "file_date") with
  | error e =>
    unfold loadFromCache at hp
    simp only [h1] at hp
    exact Option.noConfusion hp
  | ok fd =>
    cases h2 : σ (cacheKey "profile") with
    | error e =>
      unfold loadFromCache at hp
      simp only [h1, h2] at hp
      exact Option.noConfusion hp
    | ok pRaw =>
      cases h3 : jsParseOfItem pRaw with
      | none =>
        unfold loadFromCache at hp
        simp only [h1, h2, h3] at hp
        exact Option.noConfusion hp
      | some p =>
        cases h4 : σ (cacheKey "profile_images") with
        | error e =>
          unfold loadFromCache at hpi
          simp only [h1, h2, h3, h4] at hpi
          simp at hpi
        | ok iRaw =>
          cases h5 : jsParseOfItem iRaw with
          | none =>
            unfold loadFromCache at hpi
            simp only [h1, h2, h3, h4, h5] at hpi
            simp at hpi
          | some imgs =>
            unfold loadFromCache at hp ⊢
            simp only [h1, h2, h3, h4, h5, Option.some.injEq] at hp ⊢
            subst hp
            simp [ht]

/-- C7 counterexample: the claim "whenever a Document is present ... the
accompanying identityIndex equals buildIdentityIndex applied to that
Document" fails on the code.  In `loadFromCache` the assignments run in
one `try` block: if the cached document parses but the cached
`profile_images` text then throws in `JSON.parse`, the catch skips the
`cachedNames` derivation; `App` then starts with the restored document
and an EMPTY names map instead of the derived index. -/
theorem c7_counterexample :
    truthy (appInit true (fun k =>
      if k = cacheKey "profile" then
        .ok (some (jstringify (.obj [("couch_visits",
          .obj [("host_couch_visits", .arr [.obj []])])])))
      else if k = cacheKey "profile_images" then .ok (some "nope")
      else .ok none)).profile = true ∧
    (appInit true (fun k =>
      if k = cacheKey "profile" then
        .ok (some (jstringify (.obj [("couch_visits",
          .obj [("host_couch_visits", .arr [.obj []])])])))
      else if k = cacheKey "profile_images" then .ok (some "nope")
      else .ok none)).names ≠
      getNamesFromJson (appInit true (fun k =>
        if k = cacheKey "profile" then
          .ok (some (jstringify (.obj [("couch_visits",
            .obj [("host_couch_visits", .arr [.obj []])])])))
        else if k = cacheKey "profile_images" then .ok (some "nope")
        else .ok none)).profile := by
  refine ⟨by decide, by decide⟩

/-- C7 (amended): the invariant `identityIndex = buildIdentityIndex
(document)` holds immediately after every successful ingestion, and after
a cache restoration in which the document was restored and the
asset-metadata parse also succeeded (the index is then re-derived from
the cached document — no separately cached index exists); it can fail
only on the partial-restore path in which reading or parsing
`profile_images` throws after the document was already restored. -/
theorem c7_index_invariant :
    (∀ (st : AppState) (files : List DroppedFile) (st' : AppState) (oc : Outcome),
      onDrop st files = (st', oc) → oc = .success →
      st'.names = getNamesFromJson st'.profile) ∧
    (∀ (σ : ExStorage) (d : JSVal),
      (loadFromCache σ).cachedProfile = some d →
      (loadFromCache σ).cachedProfileImages.isSome = true →
      truthy d = true →
      (appInit true σ).profile = d ∧ (appInit true σ).names = getNamesFromJson d) := by
  constructor
  · intro st files st' oc h hsuc
    simp only [onDrop] at h
    repeat' split at h
    all_goals cases h
    all_goals first | rfl | exact absurd hsuc (by decide)
  · intro σ d hp hpi ht
    have hn := loadFromCache_names σ d hp hpi ht
    constructor
    · unfold appInit
      simp [hp, ht]
    · unfold appInit
      simp [hn]

/-- C7 witness. -/
theorem c7_witness :
    ((onDrop ⟨.str "", .arr [], [], "", false⟩
        [⟨"application/json", none, none, "2"⟩]).1.names =
      getNamesFromJson (onDrop ⟨.str "", .arr [], [], "", false⟩
        [⟨"application/json", none, none, "2"⟩]).1.profile) ∧
    ((appInit true (fun k => if k = cacheKey "profile" then .ok (some "2")
        else .ok none)).profile = .num 2 ∧
      (appInit true (fun k => if k = cacheKey "profile" then .ok (some "2")
        else .ok none)).names = getNamesFromJson (.num 2)) :=
  ⟨c7_index_invariant.1 ⟨.str "", .arr [], [], "", false⟩
      [⟨"application/json", none, none, "2"⟩] _ _ rfl (by decide),
    c7_index_invariant.2 (fun k => if k = cacheKey "profile" then .ok (some "2")
      else .ok none) (.num 2) (by decide) (by decide) (by decide)⟩

/-- The claim's reading of entry selection: the name's extension suffix,
lowercased, is compared against the recognized extension.  Stated only to
be refuted against the code's case-sensitive comparison. -/
def specDocSelected (e : ZipEntry) : Bool :=
  !e.dir && ((⟨(jsSplitPop e.name).data.map Char.toLower⟩ : String) == "json")

/-- C8 counterexample: the claim "selected iff ... the name's lowercase
extension suffix is a recognized extension" fails on the code.  The
comparison `name.split('.').pop() === 'json'` is case-sensitive: the
non-directory entry `A.JSON` has lowercase extension suffix `json`, yet
is not selected, and an archive holding only it yields no document. -/
theorem c8_counterexample :
    specDocSelected ⟨"A.JSON", false, some "1"⟩ = true ∧
    docMatch ⟨"A.JSON", false, some "1"⟩ = false ∧
    getJsonFromZip ⟨[⟨"A.JSON", false, some "1"⟩]⟩ = .ok (.bool false) := by
  refine ⟨by decide, by decide, rfl⟩

/-- C8 (amended): an entry is a candidate document (resp. image) entry
iff it is a non-directory entry whose name's final dot-separated
component — case-sensitively, and the whole name when it has no dot —
equals `json` (resp. is one of `jpg`, `gif`, `png`); and when several
document entries match, the first in enumeration order is decoded and
parsed while the rest are silently ignored, without error. -/
theorem c8_extension_filter (z : Zip) (e : ZipEntry) (rest : List ZipEntry)
    (hnodup : (z.entries.map ZipEntry.name).Nodup)
    (hfilter : z.entries.filter docMatch = e :: rest) :
    (getJsonFromZip z =
      match e.data with
      | none => .error ()
      | some s =>
        match parseJson s with
        | some j => .ok j
        | none => .ok (.bool false)) ∧
    (∀ e' : ZipEntry, e' ∈ z.entries.filter docMatch ↔
      e' ∈ z.entries ∧ e'.dir = false ∧ jsSplitPop e'.name = "json") ∧
    (∀ e' : ZipEntry, e' ∈ z.entries.filter imgMatch ↔
      e' ∈ z.entries ∧ e'.dir = false ∧ jsSplitPop e'.name ∈ ["jpg", "gif", "png"]) := by
  refine ⟨getJsonFromZip_single z e rest hnodup hfilter, ?_, ?_⟩
  · intro e'
    simp [List.mem_filter, docMatch, Bool.and_eq_true, and_assoc]
  · intro e'
    simp [List.mem_filter, imgMatch, Bool.and_eq_true, and_assoc]

/-- C8 witness: with two matching document entries the first wins and the
second is ignored without error. -/
theorem c8_witness :
    (((⟨[⟨"a.json", false, some "1"⟩, ⟨"b.json", false, some "2"⟩]⟩ : Zip).entries.map
        ZipEntry.name).Nodup) ∧
    getJsonFromZip ⟨[⟨"a.json", false, some "1"⟩, ⟨"b.json", false, some "2"⟩]⟩ =
      .ok (.num 1) := by
  have h := (c8_extension_filter
    ⟨[⟨"a.json", false, some "1"⟩, ⟨"b.json", false, some "2"⟩]⟩
    ⟨"a.json", false, some "1"⟩ [⟨"b.json", false, some "2"⟩]
    (by decide) (by decide)).1
  refine ⟨by decide, by rw [h]; rfl⟩

/-- C9 (confirmed): mirroring the state into the session cache and
loading it back restores an identity-equal Document and the identical
fileDate string (the index being re-derived from the restored document);
and a load over a storage whose accesses throw returns with every field
absent (`undefined`) — the catch swallows the throw. -/
theorem c9_cache_roundtrip (st : AppState) (σ : Storage)
    (hp : JsonOk st.profile = true) (hi : JsonOk st.profileImages = true) :
    (loadFromCache (liftStore (saveToCache st σ))).cachedProfile = some st.profile ∧
    (loadFromCache (liftStore (saveToCache st σ))).cachedFileDate =
      some (some st.fileDate) ∧
    loadFromCache throwingStore = ⟨none, none, none, none⟩ := by
  have h1 : liftStore (saveToCache st σ) (cacheKey "file_date") =
      .ok (some st.fileDate) := rfl
  have h2 : liftStore (saveToCache st σ) (cacheKey "profile") =
      .ok (some (jstringify st.profile)) := rfl
  have h3 : liftStore (saveToCache st σ) (cacheKey "profile_images") =
      .ok (some (jstringify st.profileImages)) := rfl
  have hparse : jsParseOfItem (some (jstringify st.profile)) = some st.profile :=
    parseJson_jstringify st.profile hp
  have hparsei : jsParseOfItem (some (jstringify st.profileImages)) =
      some st.profileImages := parseJson_jstringify st.profileImages hi
  refine ⟨?_, ?_, rfl⟩ <;>
    (unfold loadFromCache; simp only [h1, h2, h3, hparse, hparsei])

/-- C9 witness: a concrete nested document and timestamp round-trip. -/
theorem c9_witness :
    (loadFromCache (liftStore (saveToCache
        ⟨.obj [("a", .num 1), ("b", .arr [.null, .str "x"])],
          .arr [.obj [("blobUrl", .str "blob:x"), ("id", .str "i.jpg")]],
          [], "2020-05-20", false⟩ (fun _ => none)))).cachedProfile =
      some (.obj [("a", .num 1), ("b", .arr [.null, .str "x"])]) ∧
    (loadFromCache (liftStore (saveToCache
        ⟨.obj [("a", .num 1), ("b", .arr [.null, .str "x"])],
          .arr [.obj [("blobUrl", .str "blob:x"), ("id", .str "i.jpg")]],
          [], "2020-05-20", false⟩ (fun _ => none)))).cachedFileDate =
      some (some "2020-05-20") :=
  ⟨(c9_cache_roundtrip _ (fun _ => none) (by decide) (by decide)).1,
   (c9_cache_roundtrip _ (fun _ => none) (by decide) (by decide)).2.1⟩

/-- C4 witness: one truthy document entry and one image entry. -/
theorem c4_witness :
    onDrop ⟨.str "", .arr [], [], "", false⟩
        [⟨"application/zip", none,
          some ⟨[⟨"p.json", false, some "\x7b\x7d"⟩, ⟨"a.jpg", false, some "IMG"⟩]⟩, ""⟩] =
      (⟨.obj [], .arr [imageOf "IMG" "a.jpg"], [], "", false⟩, .success) := by
  have h := (c4_zip_success ⟨.str "", .arr [], [], "", false⟩ none ""
    ⟨[⟨"p.json", false, some "\x7b\x7d"⟩, ⟨"a.jpg", false, some "IMG"⟩]⟩
    ⟨"p.json", false, some "\x7b\x7d"⟩ "\x7b\x7d" (.obj [])
    (by decide) (by decide) (by decide) (by decide) (by decide) (by decide)).1
  rw [h]
  rfl
